import Mathlib

/-!
A shallow embedding of the `url_path` crate (`src/lib.rs`).

Rust strings are modelled as `List Char`.  The crate's single type
`UrlPath` is an enum with a structural variant `Path { parent, last,
is_absolute }` and an `External(String)` variant.  Each Rust method is
translated to a Lean function of the same name.
-/

/-- A Rust string, modelled as its list of characters. -/
abbrev RStr := List Char

/-- The literal `"http:"` used by `UrlPath::new` for the external check. -/
def httpColon : RStr := ['h', 't', 't', 'p', ':']

/-- The literal `"https:"` used by `UrlPath::new` for the external check. -/
def httpsColon : RStr := ['h', 't', 't', 'p', 's', ':']

/-- Rust `s.starts_with(pre)` on the `List Char` model: `startsWith pre s`
is `true` iff `pre` is a prefix of `s`. -/
def startsWith : RStr → RStr → Bool
  | [], _ => true
  | _ :: _, [] => false
  | p :: ps, c :: cs => p == c && startsWith ps cs

/-- The enum `UrlPath` from `src/lib.rs`: a structural path with optional
`parent`, optional `last` and an `is_absolute` flag, or an external URL
stored verbatim. -/
inductive UrlPath where
  | Path (parent : Option RStr) (last : Option RStr) (is_absolute : Bool)
  | External (s : RStr)
  deriving DecidableEq

/-- The body of the closure inside `UrlPath::canonicalize`'s `inspect`:
on segment `".."` pop the last collected segment (a no-op on the empty
list), otherwise push the segment. -/
def step (path : List RStr) (s : RStr) : List RStr :=
  if s == ['.', '.'] then path.dropLast else path ++ [s]

/-- The segment list built by `UrlPath::canonicalize` before the final
`pop`: split on `/`, drop segments that are empty or `"."`, then run the
push/pop walk. -/
def resolvedSegs (path : RStr) : List RStr :=
  ((path.splitOn '/').filter (fun s => !(s.isEmpty || s == ['.']))).foldl step []

/-- `UrlPath::canonicalize` from `src/lib.rs`: returns `(parent, filename)`
where `filename` is the popped last resolved segment and `parent` is the
`/`-join of the rest, `None` when that join is empty. -/
def UrlPath.canonicalize (path : RStr) : Option RStr × Option RStr :=
  let resolved := resolvedSegs path
  let filename := resolved.getLast?
  let parent := ['/'].intercalate resolved.dropLast
  (if parent.isEmpty then none else some parent, filename)

/-- `UrlPath::new` from `src/lib.rs`. -/
def UrlPath.new (path : RStr) : UrlPath :=
  let pl := UrlPath.canonicalize path
  let is_absolute := startsWith ['/'] path
  let is_external := startsWith httpColon path || startsWith httpsColon path
  if is_external then UrlPath.External path
  else UrlPath.Path pl.1 pl.2 is_absolute

/-- `UrlPath::is_absolute` from `src/lib.rs`. -/
def UrlPath.is_absolute : UrlPath → Bool
  | UrlPath.Path _ _ a => a
  | UrlPath.External _ => false

/-- `UrlPath::is_external` from `src/lib.rs`. -/
def UrlPath.is_external : UrlPath → Bool
  | UrlPath.External _ => true
  | UrlPath.Path _ _ _ => false

/-- `UrlPath::last` from `src/lib.rs`. -/
def UrlPath.last : UrlPath → Option RStr
  | UrlPath.Path _ l _ => l
  | UrlPath.External _ => none

/-- `UrlPath::parent` from `src/lib.rs`. -/
def UrlPath.parent : UrlPath → Option RStr
  | UrlPath.Path p _ _ => p
  | UrlPath.External _ => none

/-- `UrlPath::normalize` from `src/lib.rs`, including the (dead) re-test
of `parent` inside the `last`-only branch. -/
def UrlPath.normalize : UrlPath → RStr
  | UrlPath.Path parent last is_absolute =>
    let full_path :=
      match parent with
      | some p =>
        match last with
        | some file => p ++ '/' :: file
        | none => p
      | none =>
        match last with
        | some file =>
          match parent with
          | some p => p ++ '/' :: file
          | none => file
        | none => []
    if is_absolute then '/' :: full_path else full_path
  | UrlPath.External s => s

/-!
Spec-mirror definitions, written from the wording of the specification
(not from the source), used only to compare against the embedded code.
-/

/-- The walk of the reference algorithm of the spec (§4.1, step 3): pop
the last collected segment on `".."` (discarding the `".."` when the
collected list is empty), append any other segment. -/
def collectSpec : List RStr → List RStr → List RStr
  | acc, [] => acc
  | acc, seg :: rest =>
    if seg == ['.', '.'] then collectSpec acc.dropLast rest
    else collectSpec (acc ++ [seg]) rest

/-- The reference canonicalization algorithm as the spec words it: split
on `/`, drop segments that are empty or exactly `"."`, walk with
`collectSpec`, remove the final collected segment as `last` (`none` on an
empty list), join the rest with `/` as `parent` (`none` on an empty
join). -/
def canonicalizeSpec (input : RStr) : Option RStr × Option RStr :=
  let kept := (input.splitOn '/').filter (fun seg => !(seg == [] || seg == ['.']))
  let collected := collectSpec [] kept
  let lastSeg := collected.getLast?
  let rest := collected.dropLast
  let joined := ['/'].intercalate rest
  (if joined = [] then none else some joined, lastSeg)

/-- The rendering rule as the spec words it (§4.2 / claim C2): join
`parent` and `last` with `/` when both are present, otherwise whichever
one is present, otherwise the empty string; prepend `/` when absolute. -/
def renderSpec (parent last : Option RStr) (is_absolute : Bool) : RStr :=
  let body :=
    match parent, last with
    | some p, some l => p ++ '/' :: l
    | some p, none => p
    | none, some l => l
    | none, none => []
  if is_absolute then '/' :: body else body

/-- A canonical segment: non-empty, free of `/`, and neither `"."` nor
`".."` (claim C10). -/
def goodSeg (s : RStr) : Prop :=
  s ≠ [] ∧ '/' ∉ s ∧ s ≠ ['.'] ∧ s ≠ ['.', '.']

instance (s : RStr) : Decidable (goodSeg s) := by
  unfold goodSeg
  infer_instance

/-! Helper lemmas about the embedded definitions. -/

lemma new_external {s : RStr}
    (h : (startsWith httpColon s || startsWith httpsColon s) = true) :
    UrlPath.new s = UrlPath.External s := by
  simp [UrlPath.new, h]

lemma new_structural {s : RStr}
    (h : (startsWith httpColon s || startsWith httpsColon s) = false) :
    UrlPath.new s
      = UrlPath.Path (UrlPath.canonicalize s).1 (UrlPath.canonicalize s).2
          (startsWith ['/'] s) := by
  simp [UrlPath.new, h]

lemma canonicalize_eq (s : RStr) :
    UrlPath.canonicalize s
      = (if (['/'].intercalate (resolvedSegs s).dropLast).isEmpty then none
         else some (['/'].intercalate (resolvedSegs s).dropLast),
         (resolvedSegs s).getLast?) := rfl

lemma normalize_Path (p l : Option RStr) (a : Bool) :
    UrlPath.normalize (UrlPath.Path p l a) = renderSpec p l a := by
  cases p <;> cases l <;> cases a <;> rfl

lemma collectSpec_eq_foldl : ∀ (xs acc : List RStr),
    collectSpec acc xs = xs.foldl step acc := by
  intro xs
  induction xs with
  | nil => intro acc; rfl
  | cons x xs ih =>
    intro acc
    simp only [collectSpec, List.foldl_cons, step]
    by_cases hx : (x == ['.', '.']) = true
    · rw [if_pos hx, if_pos hx, ih]
    · rw [if_neg hx, if_neg hx, ih]

lemma isEmpty_eq_beq_nil (x : RStr) : x.isEmpty = (x == []) := by
  cases x <;> rfl

lemma canonicalizeSpec_eq (s : RStr) :
    canonicalizeSpec s = UrlPath.canonicalize s := by
  simp only [canonicalizeSpec, UrlPath.canonicalize, resolvedSegs,
    collectSpec_eq_foldl, isEmpty_eq_beq_nil]
  congr 1
  split
  · next h =>
    rw [if_pos]
    rwa [beq_iff_eq]
  · next h =>
    rw [if_neg]
    rwa [beq_iff_eq]

lemma mem_splitOnP_slash :
    ∀ (l : RStr), ∀ x ∈ l.splitOnP (· == '/'), '/' ∉ x := by
  intro l
  induction l with
  | nil =>
    intro x hx
    simp only [List.splitOnP_nil, List.mem_singleton] at hx
    simp [hx]
  | cons c cs ih =>
    intro x hx
    rw [List.splitOnP_cons] at hx
    by_cases hc : (c == '/') = true
    · rw [if_pos hc] at hx
      rcases List.mem_cons.mp hx with h | h
      · simp [h]
      · exact ih x h
    · rw [if_neg hc] at hx
      rcases hsp : cs.splitOnP (· == '/') with _ | ⟨hd, tl⟩
      · exact absurd hsp (List.splitOnP_ne_nil _ cs)
      · rw [hsp, List.modifyHead_cons] at hx
        rcases List.mem_cons.mp hx with h | h
        · subst h
          intro hmem
          rcases List.mem_cons.mp hmem with h2 | h2
          · exact hc (by rw [← h2]; exact beq_self_eq_true _)
          · exact ih hd (by rw [hsp]; exact List.mem_cons_self _ _) h2
        · exact ih x (by rw [hsp]; exact List.mem_cons_of_mem _ h)

lemma mem_splitOn_slash {l x : RStr} (hx : x ∈ l.splitOn '/') : '/' ∉ x :=
  mem_splitOnP_slash l x hx

lemma splitOn_slash_cons (p : RStr) :
    ('/' :: p).splitOn '/' = [] :: p.splitOn '/' := by
  simp [List.splitOn, List.splitOnP_cons]

lemma foldl_step_good :
    ∀ (xs : List RStr) (acc : List RStr),
      (∀ x ∈ acc, goodSeg x) →
      (∀ x ∈ xs, x ≠ [] ∧ '/' ∉ x ∧ x ≠ ['.']) →
      ∀ y ∈ xs.foldl step acc, goodSeg y := by
  intro xs
  induction xs with
  | nil =>
    intro acc hacc _ y hy
    exact hacc y hy
  | cons x xs ih =>
    intro acc hacc hxs y hy
    rw [List.foldl_cons] at hy
    refine ih (step acc x) ?_ (fun z hz => hxs z (List.mem_cons_of_mem _ hz)) y hy
    intro z hz
    unfold step at hz
    by_cases hdd : (x == ['.', '.']) = true
    · rw [if_pos hdd] at hz
      exact hacc z ((List.dropLast_sublist acc).subset hz)
    · rw [if_neg hdd] at hz
      rcases List.mem_append.mp hz with h | h
      · exact hacc z h
      · rw [List.mem_singleton.mp h]
        obtain ⟨h1, h2, h3⟩ := hxs x (List.mem_cons_self _ _)
        exact ⟨h1, h2, h3, fun hcon => hdd (by rw [hcon]; exact beq_self_eq_true _)⟩

lemma resolvedSegs_good (s : RStr) : ∀ y ∈ resolvedSegs s, goodSeg y := by
  intro y hy
  unfold resolvedSegs at hy
  refine foldl_step_good _ [] (by intro z hz; cases hz) ?_ y hy
  intro x hx
  obtain ⟨hmem, hpred⟩ := List.mem_filter.mp hx
  simp only [Bool.not_eq_true', Bool.or_eq_false_iff] at hpred
  obtain ⟨hemp, hdot⟩ := hpred
  refine ⟨?_, mem_splitOn_slash hmem, ?_⟩
  · intro hcon
    rw [hcon] at hemp
    exact absurd hemp (by decide)
  · intro hcon
    rw [hcon] at hdot
    exact absurd hdot (by decide)

lemma intercalate_slash_nil : ['/'].intercalate ([] : List RStr) = [] := rfl

lemma intercalate_slash_single (a : RStr) : ['/'].intercalate [a] = a := by
  simp [List.intercalate]

lemma intercalate_slash_cons_cons (a b : RStr) (t : List RStr) :
    ['/'].intercalate (a :: b :: t) = a ++ '/' :: ['/'].intercalate (b :: t) := by
  simp [List.intercalate, List.intersperse_cons_cons, List.flatten_cons]

lemma intercalate_slash_ne_nil {x : RStr} (hx : x ≠ []) (rest : List RStr) :
    ['/'].intercalate (x :: rest) ≠ [] := by
  cases rest with
  | nil => rwa [intercalate_slash_single]
  | cons b t =>
    rw [intercalate_slash_cons_cons]
    simp [List.append_eq_nil]

lemma intercalate_slash_append_last :
    ∀ (xs : List RStr) (l : RStr), xs ≠ [] →
      ['/'].intercalate (xs ++ [l]) = ['/'].intercalate xs ++ '/' :: l := by
  intro xs
  induction xs with
  | nil => intro l h; exact absurd rfl h
  | cons x xs ih =>
    intro l _
    cases xs with
    | nil =>
      rw [List.singleton_append, intercalate_slash_cons_cons,
        intercalate_slash_single, intercalate_slash_single]
    | cons y t =>
      have h1 : (x :: y :: t) ++ [l] = x :: y :: (t ++ [l]) := by simp
      have h2 : y :: (t ++ [l]) = (y :: t) ++ [l] := by simp
      rw [h1, intercalate_slash_cons_cons, h2, ih l (by simp),
        intercalate_slash_cons_cons]
      simp

lemma exists_intercalate_head (x : RStr) (rest : List RStr) :
    ∃ t, ['/'].intercalate (x :: rest) = x ++ t := by
  cases rest with
  | nil => exact ⟨[], by rw [intercalate_slash_single, List.append_nil]⟩
  | cons b t => exact ⟨'/' :: ['/'].intercalate (b :: t), intercalate_slash_cons_cons x b t⟩

lemma startsWith_slash_head {x : RStr} (hne : x ≠ []) (hns : '/' ∉ x) (t : RStr) :
    startsWith ['/'] (x ++ t) = false := by
  cases x with
  | nil => exact absurd rfl hne
  | cons c cs =>
    rw [List.cons_append]
    show ('/' == c && startsWith [] (cs ++ t)) = false
    have hc : c ≠ '/' := fun h => hns (by rw [h]; exact List.mem_cons_self _ _)
    simp [startsWith]
    intro h
    exact absurd h.symm hc

lemma startsWith_slash_cons (z : RStr) : startsWith ['/'] ('/' :: z) = true := by
  simp [startsWith]

lemma foldl_step_no_dotdot :
    ∀ (xs : List RStr), (∀ x ∈ xs, x ≠ ['.', '.']) →
      ∀ acc, xs.foldl step acc = acc ++ xs := by
  intro xs
  induction xs with
  | nil => intro _ acc; rw [List.append_nil]; rfl
  | cons x xs ih =>
    intro hx acc
    rw [List.foldl_cons]
    have hstep : step acc x = acc ++ [x] := by
      unfold step
      rw [if_neg]
      intro hcon
      exact hx x (List.mem_cons_self _ _) (by rwa [beq_iff_eq] at hcon)
    rw [hstep, ih (fun z hz => hx z (List.mem_cons_of_mem _ hz)),
      List.append_assoc, List.singleton_append]

lemma resolvedSegs_slash_cons (p : RStr) :
    resolvedSegs ('/' :: p) = resolvedSegs p := by
  unfold resolvedSegs
  rw [splitOn_slash_cons, List.filter_cons]
  simp

lemma resolvedSegs_intercalate {r : List RStr}
    (hgood : ∀ x ∈ r, goodSeg x) :
    resolvedSegs (['/'].intercalate r) = r := by
  cases r with
  | nil => rfl
  | cons x rest =>
    unfold resolvedSegs
    rw [List.splitOn_intercalate (x :: rest) '/'
      (fun l hl => (hgood l hl).2.1) (by simp)]
    rw [List.filter_eq_self.mpr ?_]
    · exact foldl_step_no_dotdot (x :: rest)
        (fun z hz => (hgood z hz).2.2.2) []
    · intro a ha
      obtain ⟨h1, _, h3, _⟩ := hgood a ha
      simp only [Bool.not_eq_true', Bool.or_eq_false_iff]
      constructor
      · rw [isEmpty_eq_beq_nil]
        exact beq_eq_false_iff_ne.mpr h1
      · exact beq_eq_false_iff_ne.mpr h3

lemma normalize_new_body {r : List RStr}
    (hgood : ∀ x ∈ r, goodSeg x) (a : Bool) :
    UrlPath.normalize (UrlPath.Path
        (if (['/'].intercalate r.dropLast).isEmpty then none
         else some (['/'].intercalate r.dropLast))
        r.getLast? a)
      = (if a then '/' :: ['/'].intercalate r else ['/'].intercalate r) := by
  match r with
  | [] => cases a <;> rfl
  | [x] =>
    rw [intercalate_slash_single]
    cases a <;> rfl
  | x :: y :: t =>
    have hdne : (x :: y :: t).dropLast = x :: (y :: t).dropLast := rfl
    have hxne : x ≠ [] := (hgood x (List.mem_cons_self _ _)).1
    have hjne : ['/'].intercalate ((x :: y :: t).dropLast) ≠ [] := by
      rw [hdne]; exact intercalate_slash_ne_nil hxne _
    rcases hgl : (x :: y :: t).getLast? with _ | l
    · exact absurd (List.getLast?_eq_none_iff.mp hgl) (by simp)
    · have hr : (x :: y :: t).dropLast ++ [l] = x :: y :: t :=
        List.dropLast_append_getLast? l (Option.mem_def.mpr hgl)
      rw [if_neg (by simpa [List.isEmpty_iff] using hjne)]
      have hbody : ['/'].intercalate (x :: y :: t)
          = ['/'].intercalate ((x :: y :: t).dropLast) ++ '/' :: l := by
        rw [← hr, intercalate_slash_append_last _ l (by rw [hdne]; simp)]
        rw [hr]
      rw [hbody]
      cases a <;> rfl

lemma renormalize_canonical {r : List RStr}
    (hgood : ∀ x ∈ r, goodSeg x) (a : Bool) :
    UrlPath.normalize (UrlPath.new
        (if a then '/' :: ['/'].intercalate r else ['/'].intercalate r))
      = (if a then '/' :: ['/'].intercalate r else ['/'].intercalate r) := by
  by_cases hext : (startsWith httpColon
        (if a then '/' :: ['/'].intercalate r else ['/'].intercalate r)
      || startsWith httpsColon
        (if a then '/' :: ['/'].intercalate r else ['/'].intercalate r)) = true
  · rw [new_external hext]
    rfl
  · rw [new_structural (Bool.not_eq_true _ ▸ hext)]
    have hres : resolvedSegs
        (if a then '/' :: ['/'].intercalate r else ['/'].intercalate r) = r := by
      cases a with
      | false => simpa using resolvedSegs_intercalate hgood
      | true =>
        simpa [resolvedSegs_slash_cons] using resolvedSegs_intercalate hgood
    have habs : startsWith ['/']
        (if a then '/' :: ['/'].intercalate r else ['/'].intercalate r) = a := by
      cases a with
      | true => simpa using startsWith_slash_cons _
      | false =>
        simp only [if_neg Bool.false_ne_true, Bool.if_false_left]
        cases r with
        | nil => rfl
        | cons x rest =>
          obtain ⟨t, ht⟩ := exists_intercalate_head x rest
          rw [ht]
          exact startsWith_slash_head (hgood x (List.mem_cons_self _ _)).1
            (hgood x (List.mem_cons_self _ _)).2.1 t
    rw [canonicalize_eq, hres, habs]
    exact normalize_new_body hgood a

/-! The claims. -/

/-- C1: for every input string not starting with `http:` or `https:`, the
pair `(parent, last)` stored by `new` equals the result of the reference
algorithm of the spec (`canonicalizeSpec`): split on `/`, drop empty and
`"."` segments, walk the rest popping on `".."` (discarding an excess
`".."`), remove the final collected segment as `last`, and `/`-join the
remainder as `parent` (`none` if that join is empty). -/
theorem claim_c1_new_matches_reference (s : RStr)
    (h : (startsWith httpColon s || startsWith httpsColon s) = false) :
    UrlPath.parent (UrlPath.new s) = (canonicalizeSpec s).1
    ∧ UrlPath.last (UrlPath.new s) = (canonicalizeSpec s).2 := by
  rw [new_structural h, canonicalizeSpec_eq]
  exact ⟨rfl, rfl⟩

/-- Witness for C1 at the concrete input `"a/b/../c"`. -/
theorem claim_c1_witness :
    (UrlPath.parent (UrlPath.new ("a/b/../c".toList))
        = (canonicalizeSpec ("a/b/../c".toList)).1
      ∧ UrlPath.last (UrlPath.new ("a/b/../c".toList))
        = (canonicalizeSpec ("a/b/../c".toList)).2)
    ∧ (canonicalizeSpec ("a/b/../c".toList)).1 = some ("a".toList)
    ∧ (canonicalizeSpec ("a/b/../c".toList)).2 = some ("c".toList) :=
  ⟨claim_c1_new_matches_reference ("a/b/../c".toList) (by decide),
   by decide, by decide⟩

/-- C2: for every structural (non-external) instance, `normalize` renders
parent and last joined with `/` when both are present, the present one
alone otherwise, the empty string when both are absent, and prepends one
`/` when `is_absolute` is true — so the absolute empty body renders as
`"/"`. -/
theorem claim_c2_normalize_rendering :
    (∀ (p l : Option RStr) (a : Bool),
      UrlPath.normalize (UrlPath.Path p l a) = renderSpec p l a)
    ∧ UrlPath.normalize (UrlPath.Path none none true) = ['/'] :=
  ⟨normalize_Path, rfl⟩

/-- C3: every string starting with `http:` or `https:` constructs an
`External` instance that `normalize` returns verbatim, with
`is_external` true and `is_absolute` false. -/
theorem claim_c3_external_passthrough (s : RStr)
    (h : (startsWith httpColon s || startsWith httpsColon s) = true) :
    UrlPath.new s = UrlPath.External s
    ∧ UrlPath.normalize (UrlPath.new s) = s
    ∧ UrlPath.is_external (UrlPath.new s) = true
    ∧ UrlPath.is_absolute (UrlPath.new s) = false := by
  rw [new_external h]
  exact ⟨rfl, rfl, rfl, rfl⟩

/-- Witness for C3 at the concrete input `"https://x/y"`. -/
theorem claim_c3_witness :
    UrlPath.new ("https://x/y".toList) = UrlPath.External ("https://x/y".toList)
    ∧ UrlPath.normalize (UrlPath.new ("https://x/y".toList)) = ("https://x/y".toList)
    ∧ UrlPath.is_external (UrlPath.new ("https://x/y".toList)) = true
    ∧ UrlPath.is_absolute (UrlPath.new ("https://x/y".toList)) = false :=
  claim_c3_external_passthrough ("https://x/y".toList) (by decide)

/-- C4: normalization is idempotent — for every string `s`,
`normalize (new (normalize (new s)))` equals `normalize (new s)`. -/
theorem claim_c4_normalize_idempotent (s : RStr) :
    UrlPath.normalize (UrlPath.new (UrlPath.normalize (UrlPath.new s)))
      = UrlPath.normalize (UrlPath.new s) := by
  by_cases hext : (startsWith httpColon s || startsWith httpsColon s) = true
  · rw [new_external hext]
    show UrlPath.normalize (UrlPath.new s) = s
    rw [new_external hext]
    rfl
  · have hext' : (startsWith httpColon s || startsWith httpsColon s) = false :=
      Bool.not_eq_true _ ▸ hext
    have h1 : UrlPath.normalize (UrlPath.new s)
        = (if startsWith ['/'] s then '/' :: ['/'].intercalate (resolvedSegs s)
           else ['/'].intercalate (resolvedSegs s)) := by
      rw [new_structural hext', canonicalize_eq]
      exact normalize_new_body (resolvedSegs_good s) _
    rw [h1]
    exact renormalize_canonical (resolvedSegs_good s) _

/-- C5: for every non-external input, `is_absolute` of the constructed
instance is exactly "the input starts with `/`". -/
theorem claim_c5_absolute_flag (s : RStr)
    (h : (startsWith httpColon s || startsWith httpsColon s) = false) :
    UrlPath.is_absolute (UrlPath.new s) = startsWith ['/'] s := by
  rw [new_structural h]
  rfl

/-- Witness for C5 at the concrete input `"/a"`. -/
theorem claim_c5_witness :
    UrlPath.is_absolute (UrlPath.new ("/a".toList)) = startsWith ['/'] ("/a".toList)
    ∧ startsWith ['/'] ("/a".toList) = true :=
  ⟨claim_c5_absolute_flag ("/a".toList) (by decide), by decide⟩

/-- C6: on every `External` instance the accessors `parent` and `last`
return `none` and `is_absolute` returns `false`, whatever the stored
string; in particular this holds for `new` of any input starting with
`http:` or `https:`. -/
theorem claim_c6_external_accessors (s : RStr) :
    (UrlPath.parent (UrlPath.External s) = none
      ∧ UrlPath.last (UrlPath.External s) = none
      ∧ UrlPath.is_absolute (UrlPath.External s) = false)
    ∧ ((startsWith httpColon s || startsWith httpsColon s) = true →
        UrlPath.parent (UrlPath.new s) = none
        ∧ UrlPath.last (UrlPath.new s) = none
        ∧ UrlPath.is_absolute (UrlPath.new s) = false) := by
  refine ⟨⟨rfl, rfl, rfl⟩, fun h => ?_⟩
  rw [new_external h]
  exact ⟨rfl, rfl, rfl⟩

/-- Witness for C6 at the concrete input `"http://e/f"`. -/
theorem claim_c6_witness :
    (UrlPath.parent (UrlPath.External ("http://e/f".toList)) = none
      ∧ UrlPath.last (UrlPath.External ("http://e/f".toList)) = none
      ∧ UrlPath.is_absolute (UrlPath.External ("http://e/f".toList)) = false)
    ∧ (UrlPath.parent (UrlPath.new ("http://e/f".toList)) = none
      ∧ UrlPath.last (UrlPath.new ("http://e/f".toList)) = none
      ∧ UrlPath.is_absolute (UrlPath.new ("http://e/f".toList)) = false) :=
  ⟨(claim_c6_external_accessors ("http://e/f".toList)).1,
   (claim_c6_external_accessors ("http://e/f".toList)).2 (by decide)⟩

/-- C7: for every input string, `parent` of the constructed instance is
never `some` of the empty string, and it is `none` whenever the resolved
segment sequence excluding the final segment is empty. -/
theorem claim_c7_parent_never_empty (s : RStr) :
    Option.all (fun p => !p.isEmpty) (UrlPath.parent (UrlPath.new s)) = true
    ∧ ((resolvedSegs s).dropLast = [] →
        UrlPath.parent (UrlPath.new s) = none) := by
  by_cases hext : (startsWith httpColon s || startsWith httpsColon s) = true
  · rw [new_external hext]
    exact ⟨rfl, fun _ => rfl⟩
  · rw [new_structural (Bool.not_eq_true _ ▸ hext), canonicalize_eq]
    simp only [UrlPath.parent]
    constructor
    · split
      · rfl
      · next hne =>
        simp only [Option.all_some]
        have hf : (['/'].intercalate (resolvedSegs s).dropLast).isEmpty = false := by
          rwa [Bool.not_eq_true] at hne
        rw [hf]
        rfl
    · intro hdrop
      rw [hdrop]
      rfl

/-- Witness for C7 at the concrete input `"a"` (where the resolved
sequence without its final segment is empty). -/
theorem claim_c7_witness :
    Option.all (fun p => !p.isEmpty) (UrlPath.parent (UrlPath.new ("a".toList))) = true
    ∧ UrlPath.parent (UrlPath.new ("a".toList)) = none :=
  ⟨(claim_c7_parent_never_empty ("a".toList)).1,
   (claim_c7_parent_never_empty ("a".toList)).2 (by decide)⟩

/-- C8: construction and rendering are total — every input, including the
empty string, all-slash strings and strings of only `.`/`..` segments,
yields exactly one of the two variants, and `normalize` yields a string
on each of those degenerate inputs. -/
theorem claim_c8_totality :
    (∀ s : RStr,
      (∃ p l a, UrlPath.new s = UrlPath.Path p l a)
      ∨ UrlPath.new s = UrlPath.External s)
    ∧ UrlPath.normalize (UrlPath.new []) = []
    ∧ UrlPath.normalize (UrlPath.new ("///".toList)) = ['/']
    ∧ UrlPath.normalize (UrlPath.new ("./..".toList)) = [] := by
  refine ⟨fun s => ?_, by decide, by decide, by decide⟩
  by_cases hext : (startsWith httpColon s || startsWith httpsColon s) = true
  · exact Or.inr (new_external hext)
  · exact Or.inl ⟨_, _, _, new_structural (Bool.not_eq_true _ ▸ hext)⟩

/-- C9: for every input string, if `parent` of the constructed instance
is `some` then `last` is `some` as well — the rendering branch with a
parent and no last segment is unreachable for instances built by `new`. -/
theorem claim_c9_parent_implies_last (s : RStr)
    (h : (UrlPath.parent (UrlPath.new s)).isSome = true) :
    (UrlPath.last (UrlPath.new s)).isSome = true := by
  by_cases hext : (startsWith httpColon s || startsWith httpsColon s) = true
  · rw [new_external hext] at h
    simp [UrlPath.parent] at h
  · rw [new_structural (Bool.not_eq_true _ ▸ hext), canonicalize_eq] at h ⊢
    simp only [UrlPath.parent] at h
    simp only [UrlPath.last]
    by_cases hres : resolvedSegs s = []
    · rw [hres] at h
      exact absurd h (by decide)
    · exact List.getLast?_isSome.mpr hres

/-- Witness for C9 at the concrete input `"a/b"`. -/
theorem claim_c9_witness :
    (UrlPath.last (UrlPath.new ("a/b".toList))).isSome = true :=
  claim_c9_parent_implies_last ("a/b".toList) (by decide)

/-- C10: instances built by `new` are canonical — a `some` value of
`last` is non-empty, contains no `/` and is neither `"."` nor `".."`,
and splitting a `some` value of `parent` on `/` yields only such
segments. -/
theorem claim_c10_canonical_fields (s : RStr) :
    (∀ l, UrlPath.last (UrlPath.new s) = some l → goodSeg l)
    ∧ (∀ p, UrlPath.parent (UrlPath.new s) = some p →
        ∀ seg ∈ p.splitOn '/', goodSeg seg) := by
  by_cases hext : (startsWith httpColon s || startsWith httpsColon s) = true
  · rw [new_external hext]
    exact ⟨fun l hl => Option.noConfusion hl, fun p hp => Option.noConfusion hp⟩
  · rw [new_structural (Bool.not_eq_true _ ▸ hext), canonicalize_eq]
    constructor
    · intro l hl
      simp only [UrlPath.last] at hl
      obtain ⟨ys, hys⟩ := List.getLast?_eq_some_iff.mp hl
      exact resolvedSegs_good s l
        (by rw [hys]; exact List.mem_append.mpr (Or.inr (List.mem_singleton.mpr rfl)))
    · intro p hp seg hseg
      simp only [UrlPath.parent] at hp
      by_cases hcond : (['/'].intercalate (resolvedSegs s).dropLast).isEmpty = true
      · rw [if_pos hcond] at hp
        exact Option.noConfusion hp
      · rw [if_neg hcond] at hp
        have hp' : p = ['/'].intercalate (resolvedSegs s).dropLast :=
          (Option.some.injEq _ _ ▸ hp).symm
        have hdne : (resolvedSegs s).dropLast ≠ [] := by
          intro hc
          rw [hc] at hcond
          exact hcond rfl
        have hgood' : ∀ x ∈ (resolvedSegs s).dropLast, goodSeg x := fun x hx =>
          resolvedSegs_good s x ((List.dropLast_sublist (resolvedSegs s)).subset hx)
        have hsplit : (['/'].intercalate (resolvedSegs s).dropLast).splitOn '/'
            = (resolvedSegs s).dropLast :=
          List.splitOn_intercalate _ '/' (fun l hl => (hgood' l hl).2.1) hdne
        rw [hp', hsplit] at hseg
        exact hgood' seg hseg

/-- Witness for C10 at the concrete input `"a/b/c"`: the stored last
segment `"c"` and the parent segment `"a"` are canonical. -/
theorem claim_c10_witness :
    goodSeg ("c".toList) ∧ goodSeg ("a".toList) :=
  ⟨(claim_c10_canonical_fields ("a/b/c".toList)).1 ("c".toList) (by decide),
   (claim_c10_canonical_fields ("a/b/c".toList)).2 ("a/b".toList) (by decide)
     ("a".toList) (by decide)⟩
